import Mathlib

/-!
# Verification of `go/vt/logz/logz_utils.go`

A shallow embedding of the three functions of package `logz`
(`StartHTMLTable`, `EndHTMLTable`, `Wrappable`) together with the part of
the Go language they rest on: a Go `string` is a sequence of bytes,
`for _, ch := range in` decodes it as UTF-8 one rune at a time, and
`bytes.Buffer.WriteRune` appends the UTF-8 encoding of a rune.

Bytes and runes are natural numbers; every place where Go truncates to a
byte (`byte(x)`) is an explicit `% 256`.
-/

namespace Logz

/-! ## Go strings, runes and the UTF-8 constants of package `unicode/utf8` -/

/-- A Go string: its bytes in order; a byte is a natural number below 256.
A rune (a code point, as the range loop yields it) is a natural number as
well: the decoder never yields a negative one. -/
abbrev GoString := List Nat

/-- `utf8.RuneError`, the replacement character U+FFFD. -/
def RuneError : Nat := 0xFFFD

/-- `utf8.RuneSelf`: bytes below it stand for themselves. -/
def RuneSelf : Nat := 0x80

/-- `utf8.MaxRune`. -/
def MaxRune : Nat := 0x10FFFF

def surrogateMin : Nat := 0xD800
def surrogateMax : Nat := 0xDFFF

def tx : Nat := 0x80
def t2 : Nat := 0xC0
def t3 : Nat := 0xE0
def t4 : Nat := 0xF0
def t5 : Nat := 0xF8

def maskx : Nat := 0x3F
def mask2 : Nat := 0x1F
def mask3 : Nat := 0x0F
def mask4 : Nat := 0x07

def rune1Max : Nat := 0x7F
def rune2Max : Nat := 0x7FF
def rune3Max : Nat := 0xFFFF

def locb : Nat := 0x80
def hicb : Nat := 0xBF

/-- Go conversion `byte(x)`: the low eight bits. -/
def byte (x : Nat) : Nat := x % 256

/-- Continuation byte test `locb <= b && b <= hicb`. -/
def isCont (b : Nat) : Bool := decide (locb ≤ b) && decide (b ≤ hicb)

/-! ## Decoding: what `for _, ch := range in` yields -/

/-- Go runtime `decoderune(s, k)` with `s[k:]` passed as the list: the rune
decoded at the front of a non-empty string and the number of bytes it takes.
Every malformed, truncated, overlong, surrogate or out-of-range sequence gives
`(RuneError, 1)`. -/
def decoderune : GoString → Nat × Nat
  | [] => (RuneError, 1)
  | b0 :: rest =>
    if t2 ≤ b0 ∧ b0 < t3 then
      match rest with
      | b1 :: _ =>
        if isCont b1 then
          let r := ((b0 &&& mask2) <<< 6) ||| (b1 &&& maskx)
          if rune1Max < r then (r, 2) else (RuneError, 1)
        else (RuneError, 1)
      | _ => (RuneError, 1)
    else if t3 ≤ b0 ∧ b0 < t4 then
      match rest with
      | b1 :: b2 :: _ =>
        if isCont b1 && isCont b2 then
          let r := (((b0 &&& mask3) <<< 12) ||| ((b1 &&& maskx) <<< 6)) ||| (b2 &&& maskx)
          if rune2Max < r ∧ ¬ (surrogateMin ≤ r ∧ r ≤ surrogateMax) then (r, 3)
          else (RuneError, 1)
        else (RuneError, 1)
      | _ => (RuneError, 1)
    else if t4 ≤ b0 ∧ b0 < t5 then
      match rest with
      | b1 :: b2 :: b3 :: _ =>
        if isCont b1 && isCont b2 && isCont b3 then
          let r := ((((b0 &&& mask4) <<< 18) ||| ((b1 &&& maskx) <<< 12))
                    ||| ((b2 &&& maskx) <<< 6)) ||| (b3 &&& maskx)
          if rune3Max < r ∧ r ≤ MaxRune then (r, 4) else (RuneError, 1)
        else (RuneError, 1)
      | _ => (RuneError, 1)
    else (RuneError, 1)

/-- One iteration header of `for _, ch := range in`: `none` when the string
is exhausted, otherwise the rune at the front and the rest of the string.
A byte below `RuneSelf` is its own rune and takes one byte; anything else
goes through `decoderune`. -/
def rangeNext : GoString → Option (Nat × GoString)
  | [] => none
  | b0 :: rest =>
    if b0 < RuneSelf then some (b0, rest)
    else some ((decoderune (b0 :: rest)).1, (b0 :: rest).drop (decoderune (b0 :: rest)).2)

/-- The runes a range loop over `s` yields, in order, with a bound on the
number of iterations. -/
def runesFuel : Nat → GoString → List Nat
  | 0, _ => []
  | fuel + 1, s =>
    match rangeNext s with
    | none => []
    | some (ch, rest) => ch :: runesFuel fuel rest

/-- The runes a range loop over `s` yields. Every iteration takes at least
one byte, so `s.length` iterations are enough (`runesFuel_enough`). -/
def runes (s : GoString) : List Nat := runesFuel s.length s

/-! ## Encoding: `bytes.Buffer.WriteRune` -/

/-- The bytes `utf8.EncodeRune` produces for `r` (as `uint32`). -/
def EncodeRune (r : Nat) : GoString :=
  if r ≤ rune1Max then [byte r]
  else if r ≤ rune2Max then
    [t2 ||| byte (r >>> 6), tx ||| (byte r &&& maskx)]
  else if r > MaxRune ∨ (surrogateMin ≤ r ∧ r ≤ surrogateMax) then
    [t3 ||| byte (RuneError >>> 12), tx ||| (byte (RuneError >>> 6) &&& maskx),
      tx ||| (byte RuneError &&& maskx)]
  else if r ≤ rune3Max then
    [t3 ||| byte (r >>> 12), tx ||| (byte (r >>> 6) &&& maskx), tx ||| (byte r &&& maskx)]
  else
    [t4 ||| byte (r >>> 18), tx ||| (byte (r >>> 12) &&& maskx),
      tx ||| (byte (r >>> 6) &&& maskx), tx ||| (byte r &&& maskx)]

/-- The buffer after `buf.WriteRune(r)`: a rune below `RuneSelf` is written as
one byte, any other as its UTF-8 encoding. -/
def WriteRune (buf : GoString) (r : Nat) : GoString :=
  if r < RuneSelf then buf ++ [byte r] else buf ++ EncodeRune r

/-! ## `Wrappable` -/

/-- The body of the loop in `Wrappable`: write `ch`, and after a comma or a
closing parenthesis also write the zero-width space U+200B. -/
def wrapBody (buf : GoString) (ch : Nat) : GoString :=
  let buf := WriteRune buf ch
  if ch = 0x2C ∨ ch = 0x29 then WriteRune buf 0x200B else buf

/-- The loop of `Wrappable` with a bound on the number of iterations:
`for _, ch := range in { ... }` over what is left of `in`. -/
def wrapLoop : Nat → GoString → GoString → GoString
  | 0, _, buf => buf
  | fuel + 1, s, buf =>
    match rangeNext s with
    | none => buf
    | some (ch, rest) => wrapLoop fuel rest (wrapBody buf ch)

/-- `Wrappable(in)`: start from an empty buffer, run the loop, return the
buffer. The loop takes at most `in.length` iterations (`wrapLoop_enough`). -/
def Wrappable (s : GoString) : GoString := wrapLoop s.length s []

/-! ## The reference transform on code points -/

/-- A Unicode scalar value: a code point up to U+10FFFF that is not a
surrogate. Valid UTF-8 text is the encoding of a sequence of these. -/
def IsScalar (c : Nat) : Prop := c ≤ MaxRune ∧ ¬ (surrogateMin ≤ c ∧ c ≤ surrogateMax)

instance (c : Nat) : Decidable (IsScalar c) := by unfold IsScalar; infer_instance

/-- The UTF-8 encoding of a sequence of code points. -/
def utf8 : List Nat → GoString
  | [] => []
  | c :: cs => EncodeRune c ++ utf8 cs

/-- The reference transform of the specification, on code points: each code
point unchanged, followed by one U+200B exactly when it is `,` or `)`. -/
def WrappableRef (cs : List Nat) : List Nat :=
  (cs.map fun c => if c = 0x2C ∨ c = 0x29 then [c, 0x200B] else [c]).flatten

/-- Delete the one code point that follows each `,` and each `)`. -/
def dropAfterTrigger : List Nat → List Nat
  | [] => []
  | [c] => [c]
  | c :: d :: rest =>
    if c = 0x2C ∨ c = 0x29 then c :: dropAfterTrigger rest
    else c :: dropAfterTrigger (d :: rest)

/-! ## The two table functions -/

/-- The bytes of a Go string literal given as text: the UTF-8 encoding of its
characters (Go source is UTF-8, and a raw string literal holds the bytes
between the back quotes as they are). -/
def bytesOf (str : String) : GoString := utf8 (str.toList.map Char.toNat)

/-- A raw string literal given by its lines: the lines with a line break
between each two. -/
def joinLines : List String → GoString
  | [] => []
  | [l] => bytesOf l
  | l :: ls => bytesOf l ++ 0x0A :: joinLines ls

/-- The lines of the raw string literal in `StartHTMLTable`, between the
back quotes: it starts with a line break and ends with a line break and a tab.
In these strings `\x7b`, `\x7d` and `\x27` stand for the braces and the
single quote of the source, `\t` for its tabs. -/
def startLines : List String := [
  "",
  "\t\t<!DOCTYPE html>",
  "\t\t<html>",
  "\t\t<head>",
  "\t\t<style type=\"text/css\">",
  "\t\ttable.gridtable \x7b",
  "\t\t\tfont-family: verdana,arial,sans-serif;",
  "\t\t\tfont-size:11px;",
  "\t\t\tborder-width: 1px;",
  "\t\t\tborder-collapse: collapse;",
  "                        table-layout:fixed;",
  "                        overflow: hidden;",
  "\t\t\x7d",
  "\t\ttable.gridtable th \x7b",
  "\t\t\tborder-width: 1px;",
  "\t\t\tpadding: 8px;",
  "\t\t\tborder-style: solid;",
  "\t\t\tbackground-color: #dedede;",
  "\t\t\twhite-space: nowrap;",
  "\t\t\x7d",
  "\t\ttable.gridtable tr.low \x7b",
  "\t\t\tbackground-color: #f0f0f0;",
  "\t\t\x7d",
  "\t\ttable.gridtable tr.medium \x7b",
  "\t\t\tbackground-color: #ffcc00;",
  "\t\t\x7d",
  "\t\ttable.gridtable tr.high \x7b",
  "\t\t\tbackground-color: #ff3300;",
  "\t\t\x7d",
  "                table.gridtable tr.error \x7b",
  "\t\t\tbackground-color: #00ddff;",
  "                \x7d",
  "\t\ttable.gridtable td \x7b",
  "\t\t\tborder-width: 1px;",
  "\t\t\tpadding: 4px;",
  "\t\t\tborder-style: solid;",
  "\t\t\x7d",
  "                table.gridtable th \x7b",
  "                  padding-left: 2em;",
  "                  padding-right: 2em;",
  "                \x7d",
  "",
  "                table.gridtable th.descending:before \x7b",
  "                  content: \"▲\";",
  "                  float: left;",
  "                \x7d",
  "                table.gridtable th.ascending:before \x7b",
  "                  content: \"▼\";",
  "                  float: left;",
  "                \x7d",
  "\t\t</style>",
  "\t\t</head>",
  "\t\t<body>",
  "\t\t<table class=\"gridtable\">",
  "\t"
]

/-- The lines of the raw string literal in `EndHTMLTable`: it starts with a line
break and ends right after the closing tag of `html`. -/
def endLines : List String := [
  "",
  "</table>",
  "<script src=\"http://ajax.googleapis.com/ajax/libs/jquery/2.1.0/jquery.min.js\"></script>",
  "",
  "<script type=\"text/javascript\">",
  "$.fn.sortableByColumn = function() \x7b",
  "  var body = this.find(\x27tbody\x27);",
  "  var header = this.find(\x27thead\x27);",
  "  var contents = function(el, i) \x7b",
  "    var data = $(el).children(\x27td\x27).eq(i).text().toLowerCase();",
  "    var asNumber = parseFloat(data);",
  "    return data == asNumber ? asNumber : data;",
  "  \x7d;",
  "",
  "  this.find(\x27thead tr th\x27).each(function(index, th) \x7b",
  "    $(th).wrapInner(\x27<div width=\"5em;\"></div>\x27);",
  "",
  "    var direction = -1;",
  "    $(th).click(function() \x7b",
  "      direction *= -1;",
  "",
  "      header.find(\x27th\x27).removeClass(\x27ascending descending\x27);",
  "      $(th).addClass(direction > 0? \x27ascending\x27 : \x27descending\x27);",
  "      var rows = body.find(\x27tr\x27).detach();",
  "      rows.sort(function(left, right) \x7b",
  "        var cl = contents(left, index);",
  "        var cr = contents(right, index);",
  "        if (cl === cr) \x7b",
  "          return 0",
  "        \x7d else \x7b",
  "          return contents(left, index) > contents(right, index)? direction : -direction;",
  "        \x7d",
  "      \x7d);",
  "",
  "      body.append(rows);",
  "    \x7d);",
  "  \x7d);",
  "\x7d",
  "",
  "$(function() \x7b",
  "  $(\x27table\x27).sortableByColumn();",
  "\x7d);",
  "</script>",
  "</body>",
  "</html>"
]

/-- The argument of `w.Write` in `StartHTMLTable`: `[]byte` of the literal. -/
def startHTML : GoString := joinLines startLines

/-- The argument of the deferred `w.Write` in `EndHTMLTable`. -/
def endHTML : GoString := joinLines endLines

/-- What `Write` returns: the number of bytes written and whether the error
is non-nil. -/
structure WriteResult where
  n : Nat
  failed : Bool
deriving DecidableEq

/-- An `http.ResponseWriter` as far as this package uses it: `Write` takes the
state of the sink and the bytes, and gives the next state of the sink and its
result. Nothing is assumed about it: it may fail, write a part, or drop the
bytes. -/
structure ResponseWriter (σ : Type) where
  Write : σ → GoString → σ × WriteResult

/-- Go `defer`: the `Write` calls a function has deferred run when it returns,
the last deferred first, each on the bytes its argument had at the `defer`
statement; the results of a deferred call are dropped. -/
def runDeferred {σ : Type} (w : ResponseWriter σ) : List GoString → σ → σ
  | [], st => st
  | p :: deferred, st => runDeferred w deferred (w.Write st p).1

/-- `StartHTMLTable(w)`: one statement, the call `w.Write(...)` whose two
results are dropped; the function defers nothing and returns no value, so
what it leaves is the state of the sink. -/
def StartHTMLTable {σ : Type} (w : ResponseWriter σ) (st : σ) : σ :=
  let st := (w.Write st startHTML).1
  runDeferred w [] st

/-- `EndHTMLTable(w)`: one statement, `defer w.Write(...)`; the body does
nothing else, and the deferred call runs when the function returns. -/
def EndHTMLTable {σ : Type} (w : ResponseWriter σ) (st : σ) : σ :=
  let deferred := [endHTML]
  runDeferred w deferred st

/-- A sink that keeps the argument of every `Write` call it gets, in order,
and answers each call as `outcome` says (any byte count, error or not). -/
def recorder (outcome : List GoString → GoString → WriteResult) :
    ResponseWriter (List GoString) where
  Write := fun calls p => (calls ++ [p], outcome calls p)

/-! ## Tags: the reading of the written bytes as HTML -/

/-- Whether `s` starts with `pat`. -/
def startsWith : GoString → GoString → Bool
  | [], _ => true
  | _ :: _, [] => false
  | p :: ps, b :: bs => p == b && startsWith ps bs

/-- The number of positions of `s` at which `pat` occurs. -/
def occurrences (pat : GoString) : GoString → Nat
  | [] => 0
  | b :: bs => (if startsWith pat (b :: bs) then 1 else 0) + occurrences pat bs

/-- The position of the first occurrence of `pat` in `s`. -/
def firstIndex (pat : GoString) : GoString → Option Nat
  | [] => none
  | b :: bs =>
    if startsWith pat (b :: bs) then some 0
    else match firstIndex pat bs with
      | some i => some (i + 1)
      | none => none

/-- Whether `s` ends with `pat`. -/
def endsWith (s pat : GoString) : Bool := startsWith pat.reverse s.reverse

/-- A byte of a tag name: an ASCII letter or digit. -/
def isNameByte (b : Nat) : Bool :=
  (decide (0x61 ≤ b) && decide (b ≤ 0x7A)) || (decide (0x41 ≤ b) && decide (b ≤ 0x5A))
    || (decide (0x30 ≤ b) && decide (b ≤ 0x39))

/-- The name of a tag: the letters and digits its text starts with. -/
def tagName (content : GoString) : GoString := content.takeWhile isNameByte

/-- The elements of HTML that have no end tag. -/
def voidElements : List GoString :=
  ["area", "base", "br", "col", "embed", "hr", "img", "input", "link", "meta", "source",
    "track", "wbr"].map bytesOf

/-- The elements of HTML whose content is raw text up to their end tag. -/
def rawTextElements : List GoString := ["script", "style"].map bytesOf

/-- Where the reader is: in text, inside a tag after its `<` (with the bytes
of the tag so far, last first), or inside the raw text of a `script` or
`style` element (with its bytes so far, last first). -/
inductive Mode where
  | text
  | tag (acc : GoString)
  | raw (name : GoString) (acc : GoString)
deriving DecidableEq

/-- A tag that was read: start or end tag, its name, and the number of
elements open around it. -/
structure Tag where
  closing : Bool
  name : GoString
  depth : Nat
deriving DecidableEq

/-- The state of the reader: its mode, the names of the open elements
(innermost first), the tags read so far (last first), and whether every end
tag so far closed the innermost open element. -/
structure Scan where
  mode : Mode
  stack : List GoString
  tags : List Tag
  ok : Bool
deriving DecidableEq

/-- The reader at the start of a document. -/
def Scan.init : Scan := ⟨Mode.text, [], [], true⟩

/-- A start tag with text `content` (what stands between `<` and `>`): the
element is opened, unless it is void or the tag closes itself; after the
start tag of a raw text element the reader is in raw text. -/
def openTag (s : Scan) (content : GoString) : Scan :=
  let name := tagName content
  let t : Tag := ⟨false, name, s.stack.length⟩
  if name ∈ rawTextElements then ⟨Mode.raw name [], name :: s.stack, t :: s.tags, s.ok⟩
  else if name ∈ voidElements ∨ content.getLast? = some 0x2F then
    ⟨Mode.text, s.stack, t :: s.tags, s.ok⟩
  else ⟨Mode.text, name :: s.stack, t :: s.tags, s.ok⟩

/-- An end tag `name`: it has to close the innermost open element. -/
def closeTag (s : Scan) (name : GoString) : Scan :=
  match s.stack with
  | top :: rest =>
    if top = name then ⟨Mode.text, rest, ⟨true, name, rest.length⟩ :: s.tags, s.ok⟩
    else ⟨Mode.text, top :: rest, ⟨true, name, rest.length + 1⟩ :: s.tags, false⟩
  | [] => ⟨Mode.text, [], ⟨true, name, 0⟩ :: s.tags, false⟩

/-- The end of a tag with text `content`: `<!...>` is a declaration and no
tag, `</...>` an end tag, anything else a start tag. -/
def finishTag (s : Scan) (content : GoString) : Scan :=
  match content with
  | 0x21 :: _ => ⟨Mode.text, s.stack, s.tags, s.ok⟩
  | 0x2F :: rest => closeTag s (tagName rest)
  | _ => openTag s content

/-- The end tag of a raw text element `name`, last byte first. -/
def rawCloser (name : GoString) : GoString := ([0x3C, 0x2F] ++ name ++ [0x3E]).reverse

/-- The reader takes one byte. -/
def step (s : Scan) (b : Nat) : Scan :=
  match s.mode with
  | Mode.text => if b = 0x3C then ⟨Mode.tag [], s.stack, s.tags, s.ok⟩ else s
  | Mode.tag acc =>
    if b = 0x3E then finishTag s acc.reverse else ⟨Mode.tag (b :: acc), s.stack, s.tags, s.ok⟩
  | Mode.raw name acc =>
    if startsWith (rawCloser name) (b :: acc) then closeTag s name
    else ⟨Mode.raw name (b :: acc), s.stack, s.tags, s.ok⟩

/-- The reader takes the bytes of `bs` in order. -/
def run (bs : GoString) (s : Scan) : Scan := bs.foldl step s

/-- A document is tag-balanced when the reader ends in text with no element
open and every end tag closed the innermost open element. -/
def Balanced (doc : GoString) : Prop :=
  (run doc Scan.init).mode = Mode.text ∧ (run doc Scan.init).stack = []
    ∧ (run doc Scan.init).ok = true

instance (doc : GoString) : Decidable (Balanced doc) := by unfold Balanced; infer_instance

/-- The number of start tags named `name` in a list of tags. -/
def countStart (name : GoString) (tags : List Tag) : Nat :=
  (tags.filter fun t => !t.closing && t.name == name).length

/-- The number of start tags named `name` among the tags read in `doc`. -/
def startTags (name : String) (doc : GoString) : Nat :=
  countStart (bytesOf name) (run doc Scan.init).tags

/-- A tag read `k` elements deeper. -/
def shiftTag (k : Nat) (t : Tag) : Tag := ⟨t.closing, t.name, t.depth + k⟩

/-- The state of the reader when the same bytes are read inside the open
elements `base`, after the tags `old`. -/
def frame (base : List GoString) (old : List Tag) (s : Scan) : Scan :=
  ⟨s.mode, s.stack ++ base, s.tags.map (shiftTag base.length) ++ old, s.ok⟩

/-- The open elements after the bytes of `StartHTMLTable`. -/
def openAfterStart : List GoString := ["table", "body", "html"].map bytesOf

/-- The row of the end-to-end example. -/
def exampleRow : GoString := bytesOf "<tr class=\"medium\"><td>5</td></tr>"

/-- Rows that are well formed: a fragment that is tag-balanced on its own, in
which every tag outside of any element is a `tr` tag, and which has no `table`
tag. -/
def WellFormedRows (R : GoString) : Prop :=
  Balanced R
    ∧ (∀ t ∈ (run R Scan.init).tags, t.depth = 0 → t.name = bytesOf "tr")
    ∧ (∀ t ∈ (run R Scan.init).tags, t.name ≠ bytesOf "table")

instance (R : GoString) : Decidable (WellFormedRows R) := by
  unfold WellFormedRows; infer_instance

/-! ## Facts about the decoder and the encoder -/

theorem decoderune_width_pos (s : GoString) : 1 ≤ (decoderune s).2 := by
  unfold decoderune
  repeat' split
  all_goals first | exact Nat.le_refl 1 | (dsimp only; split <;> simp)

theorem rangeNext_length {s rest : GoString} {ch : Nat}
    (h : rangeNext s = some (ch, rest)) : rest.length < s.length := by
  cases s with
  | nil => simp [rangeNext] at h
  | cons b0 t =>
    simp only [rangeNext] at h
    split at h
    · simp only [Option.some.injEq, Prod.mk.injEq] at h
      rw [← h.2]; simp
    · simp only [Option.some.injEq, Prod.mk.injEq] at h
      rw [← h.2]
      have hw := decoderune_width_pos (b0 :: t)
      simp only [List.length_drop, List.length_cons]
      omega

theorem rangeNext_eq_none {s : GoString} (h : rangeNext s = none) : s = [] := by
  cases s with
  | nil => rfl
  | cons b0 t =>
    simp only [rangeNext] at h
    split at h <;> simp at h

/-- Fuel beyond the length of the string changes nothing: the range loop
stops by itself. -/
theorem runesFuel_enough : ∀ (n m : Nat) (s : GoString),
    s.length ≤ n → s.length ≤ m → runesFuel n s = runesFuel m s := by
  intro n
  induction n with
  | zero =>
    intro m s hn _
    have hs : s = [] := List.length_eq_zero.mp (Nat.le_zero.mp hn)
    subst hs
    cases m <;> simp [runesFuel, rangeNext]
  | succ n ih =>
    intro m s hn hm
    cases m with
    | zero =>
      have hs : s = [] := List.length_eq_zero.mp (Nat.le_zero.mp hm)
      subst hs
      simp [runesFuel, rangeNext]
    | succ m =>
      simp only [runesFuel]
      cases hr : rangeNext s with
      | none => rfl
      | some p =>
        obtain ⟨ch, rest⟩ := p
        have hl := rangeNext_length hr
        simp only
        rw [ih m rest (by omega) (by omega)]

theorem runes_of_rangeNext {s rest : GoString} {ch : Nat}
    (h : rangeNext s = some (ch, rest)) : runes s = ch :: runes rest := by
  have hl := rangeNext_length h
  unfold runes
  obtain ⟨k, hk⟩ : ∃ k, s.length = k + 1 := ⟨s.length - 1, by omega⟩
  rw [hk]
  simp only [runesFuel, h]
  rw [runesFuel_enough k rest.length rest (by omega) (Nat.le_refl _)]

theorem runes_nil : runes [] = [] := rfl

theorem wrapLoop_eq_foldl : ∀ (fuel : Nat) (s buf : GoString),
    wrapLoop fuel s buf = (runesFuel fuel s).foldl wrapBody buf := by
  intro fuel
  induction fuel with
  | zero => intro s buf; rfl
  | succ n ih =>
    intro s buf
    simp only [wrapLoop, runesFuel]
    cases hr : rangeNext s with
    | none => rfl
    | some p =>
      obtain ⟨ch, rest⟩ := p
      simp only [List.foldl_cons]
      exact ih rest _

/-- The loop of `Wrappable` is the fold of its body over the runes of the
input. -/
theorem Wrappable_eq_foldl (s : GoString) : Wrappable s = (runes s).foldl wrapBody [] :=
  wrapLoop_eq_foldl s.length s []

/-- With any fuel of at least the length of the input the loop has run to
its end: `Wrappable` is total and does not depend on the bound. -/
theorem wrapLoop_enough (fuel : Nat) (s buf : GoString) (h : s.length ≤ fuel) :
    wrapLoop fuel s buf = wrapLoop s.length s buf := by
  rw [wrapLoop_eq_foldl, wrapLoop_eq_foldl,
    runesFuel_enough fuel s.length s h (Nat.le_refl _)]

/-! ### Bit operations as arithmetic -/

theorem and_maskx (x : Nat) : x &&& 0x3F = x % 64 := Nat.and_pow_two_sub_one_eq_mod x 6
theorem and_mask2 (x : Nat) : x &&& 0x1F = x % 32 := Nat.and_pow_two_sub_one_eq_mod x 5
theorem and_mask3 (x : Nat) : x &&& 0x0F = x % 16 := Nat.and_pow_two_sub_one_eq_mod x 4
theorem and_mask4 (x : Nat) : x &&& 0x07 = x % 8 := Nat.and_pow_two_sub_one_eq_mod x 3

theorem shr6 (x : Nat) : x >>> 6 = x / 64 := Nat.shiftRight_eq_div_pow x 6
theorem shr12 (x : Nat) : x >>> 12 = x / 4096 := Nat.shiftRight_eq_div_pow x 12
theorem shr18 (x : Nat) : x >>> 18 = x / 262144 := Nat.shiftRight_eq_div_pow x 18

theorem shl6 (x : Nat) : x <<< 6 = x * 64 := Nat.shiftLeft_eq x 6
theorem shl12 (x : Nat) : x <<< 12 = x * 4096 := Nat.shiftLeft_eq x 12
theorem shl18 (x : Nat) : x <<< 18 = x * 262144 := Nat.shiftLeft_eq x 18

theorem mul_pow_or (a k b : Nat) (h : b < 2 ^ k) : a * 2 ^ k ||| b = a * 2 ^ k + b := by
  rw [Nat.mul_comm a (2 ^ k)]
  exact (Nat.mul_add_lt_is_or h a).symm

theorem mul64_or (a b : Nat) (h : b < 64) : a * 64 ||| b = a * 64 + b := mul_pow_or a 6 b h
theorem mul4096_or (a b : Nat) (h : b < 4096) : a * 4096 ||| b = a * 4096 + b :=
  mul_pow_or a 12 b h
theorem mul262144_or (a b : Nat) (h : b < 262144) : a * 262144 ||| b = a * 262144 + b :=
  mul_pow_or a 18 b h

theorem tx_or (x : Nat) (h : x < 64) : 0x80 ||| x = 128 + x := mul_pow_or 2 6 x h
theorem t2_or (x : Nat) (h : x < 32) : 0xC0 ||| x = 192 + x := mul_pow_or 6 5 x h
theorem t3_or (x : Nat) (h : x < 16) : 0xE0 ||| x = 224 + x := mul_pow_or 14 4 x h
theorem t4_or (x : Nat) (h : x < 8) : 0xF0 ||| x = 240 + x := mul_pow_or 30 3 x h

/-- The second, third and fourth byte of an encoding: `tx | byte(x)&maskx`. -/
theorem cont_byte (x : Nat) : tx ||| (byte x &&& maskx) = 128 + x % 64 := by
  simp only [tx, byte, maskx, and_maskx]
  rw [tx_or _ (Nat.mod_lt _ (by decide))]
  omega

theorem EncodeRune_one (c : Nat) (h : c ≤ 0x7F) : EncodeRune c = [c] := by
  have : c % 256 = c := Nat.mod_eq_of_lt (by omega)
  simp [EncodeRune, rune1Max, byte, h, this]

theorem EncodeRune_two (c : Nat) (h1 : 0x7F < c) (h2 : c ≤ 0x7FF) :
    EncodeRune c = [192 + c / 64, 128 + c % 64] := by
  have e0 : t2 ||| byte (c >>> 6) = 192 + c / 64 := by
    simp only [t2, byte, shr6]
    have hb : c / 64 % 256 < 32 := by omega
    rw [t2_or _ hb]; omega
  unfold EncodeRune
  rw [if_neg (by simp only [rune1Max]; omega), if_pos (by simp only [rune2Max]; omega),
    e0, cont_byte]

theorem EncodeRune_three (c : Nat) (h1 : 0x7FF < c) (h2 : c ≤ 0xFFFF)
    (hs : ¬ (0xD800 ≤ c ∧ c ≤ 0xDFFF)) :
    EncodeRune c = [224 + c / 4096, 128 + c / 64 % 64, 128 + c % 64] := by
  have e0 : t3 ||| byte (c >>> 12) = 224 + c / 4096 := by
    simp only [t3, byte, shr12]
    have hb : c / 4096 % 256 < 16 := by omega
    rw [t3_or _ hb]; omega
  have e1 : tx ||| (byte (c >>> 6) &&& maskx) = 128 + c / 64 % 64 := by
    rw [cont_byte, shr6]
  unfold EncodeRune
  rw [if_neg (by simp only [rune1Max]; omega), if_neg (by simp only [rune2Max]; omega),
    if_neg (by simp only [MaxRune, surrogateMin, surrogateMax]; omega),
    if_pos (by simp only [rune3Max]; omega), e0, e1, cont_byte]

theorem EncodeRune_four (c : Nat) (h1 : 0xFFFF < c) (h2 : c ≤ 0x10FFFF) :
    EncodeRune c = [240 + c / 262144, 128 + c / 4096 % 64, 128 + c / 64 % 64, 128 + c % 64] := by
  have e0 : t4 ||| byte (c >>> 18) = 240 + c / 262144 := by
    simp only [t4, byte, shr18]
    have hb : c / 262144 % 256 < 8 := by omega
    rw [t4_or _ hb]; omega
  have e1 : tx ||| (byte (c >>> 12) &&& maskx) = 128 + c / 4096 % 64 := by
    rw [cont_byte, shr12]
  have e2 : tx ||| (byte (c >>> 6) &&& maskx) = 128 + c / 64 % 64 := by
    rw [cont_byte, shr6]
  unfold EncodeRune
  rw [if_neg (by simp only [rune1Max]; omega), if_neg (by simp only [rune2Max]; omega),
    if_neg (by simp only [MaxRune, surrogateMin, surrogateMax]; omega),
    if_neg (by simp only [rune3Max]; omega), e0, e1, e2, cont_byte]

/-- The encoding of anything that is not a scalar value is that of U+FFFD. -/
theorem EncodeRune_invalid (c : Nat) (h : ¬ IsScalar c) : EncodeRune c = [0xEF, 0xBF, 0xBD] := by
  simp only [IsScalar, MaxRune, surrogateMin, surrogateMax] at h
  unfold EncodeRune
  rw [if_neg (by simp only [rune1Max]; omega), if_neg (by simp only [rune2Max]; omega),
    if_pos (by simp only [MaxRune, surrogateMin, surrogateMax]; omega)]
  decide

/-! ### The decoder in arithmetic form -/

theorem decode_two (b0 b1 : Nat) :
    ((b0 &&& mask2) <<< 6) ||| (b1 &&& maskx) = b0 % 32 * 64 + b1 % 64 := by
  simp only [mask2, maskx, and_mask2, and_maskx, shl6]
  rw [mul64_or _ _ (Nat.mod_lt _ (by decide))]

theorem decode_three (b0 b1 b2 : Nat) :
    (((b0 &&& mask3) <<< 12) ||| ((b1 &&& maskx) <<< 6)) ||| (b2 &&& maskx)
      = b0 % 16 * 4096 + b1 % 64 * 64 + b2 % 64 := by
  simp only [mask3, maskx, and_mask3, and_maskx, shl6, shl12]
  rw [mul4096_or _ _ (by omega)]
  have h : b0 % 16 * 4096 + b1 % 64 * 64 = (b0 % 16 * 64 + b1 % 64) * 64 := by omega
  rw [h, mul64_or _ _ (Nat.mod_lt _ (by decide))]

theorem decode_four (b0 b1 b2 b3 : Nat) :
    ((((b0 &&& mask4) <<< 18) ||| ((b1 &&& maskx) <<< 12)) ||| ((b2 &&& maskx) <<< 6))
        ||| (b3 &&& maskx)
      = b0 % 8 * 262144 + b1 % 64 * 4096 + b2 % 64 * 64 + b3 % 64 := by
  simp only [mask4, maskx, and_mask4, and_maskx, shl6, shl12, shl18]
  rw [mul262144_or _ _ (by omega)]
  have h1 : b0 % 8 * 262144 + b1 % 64 * 4096 = (b0 % 8 * 64 + b1 % 64) * 4096 := by omega
  rw [h1, mul4096_or _ _ (by omega)]
  have h2 : (b0 % 8 * 64 + b1 % 64) * 4096 + b2 % 64 * 64
      = ((b0 % 8 * 64 + b1 % 64) * 64 + b2 % 64) * 64 := by omega
  rw [h2, mul64_or _ _ (Nat.mod_lt _ (by decide))]

theorem isCont_iff (b : Nat) : isCont b = true ↔ 128 ≤ b ∧ b ≤ 191 := by
  simp [isCont, locb, hicb]

theorem decoderune_two (b0 b1 : Nat) (rest : GoString) (h0 : 192 ≤ b0 ∧ b0 < 224)
    (h1 : 128 ≤ b1 ∧ b1 ≤ 191) (hr : 0x7F < b0 % 32 * 64 + b1 % 64) :
    decoderune (b0 :: b1 :: rest) = (b0 % 32 * 64 + b1 % 64, 2) := by
  have c1 : isCont b1 = true := (isCont_iff b1).mpr h1
  simp only [decoderune]
  rw [if_pos (by simp only [t2, t3]; omega), if_pos c1]
  simp only [decode_two]
  rw [if_pos (by simp only [rune1Max]; omega)]

theorem decoderune_three (b0 b1 b2 : Nat) (rest : GoString) (h0 : 224 ≤ b0 ∧ b0 < 240)
    (h1 : 128 ≤ b1 ∧ b1 ≤ 191) (h2 : 128 ≤ b2 ∧ b2 ≤ 191)
    (hr : 0x7FF < b0 % 16 * 4096 + b1 % 64 * 64 + b2 % 64)
    (hs : ¬ (0xD800 ≤ b0 % 16 * 4096 + b1 % 64 * 64 + b2 % 64 ∧
              b0 % 16 * 4096 + b1 % 64 * 64 + b2 % 64 ≤ 0xDFFF)) :
    decoderune (b0 :: b1 :: b2 :: rest) = (b0 % 16 * 4096 + b1 % 64 * 64 + b2 % 64, 3) := by
  have c1 : isCont b1 = true := (isCont_iff b1).mpr h1
  have c2 : isCont b2 = true := (isCont_iff b2).mpr h2
  simp only [decoderune]
  rw [if_neg (by simp only [t2, t3]; omega), if_pos (by simp only [t3, t4]; omega),
    if_pos (by simp [c1, c2])]
  simp only [decode_three]
  rw [if_pos (by simp only [rune2Max, surrogateMin, surrogateMax]; omega)]

theorem decoderune_four (b0 b1 b2 b3 : Nat) (rest : GoString) (h0 : 240 ≤ b0 ∧ b0 < 248)
    (h1 : 128 ≤ b1 ∧ b1 ≤ 191) (h2 : 128 ≤ b2 ∧ b2 ≤ 191) (h3 : 128 ≤ b3 ∧ b3 ≤ 191)
    (hr : 0xFFFF < b0 % 8 * 262144 + b1 % 64 * 4096 + b2 % 64 * 64 + b3 % 64)
    (hm : b0 % 8 * 262144 + b1 % 64 * 4096 + b2 % 64 * 64 + b3 % 64 ≤ 0x10FFFF) :
    decoderune (b0 :: b1 :: b2 :: b3 :: rest)
      = (b0 % 8 * 262144 + b1 % 64 * 4096 + b2 % 64 * 64 + b3 % 64, 4) := by
  have c1 : isCont b1 = true := (isCont_iff b1).mpr h1
  have c2 : isCont b2 = true := (isCont_iff b2).mpr h2
  have c3 : isCont b3 = true := (isCont_iff b3).mpr h3
  simp only [decoderune]
  rw [if_neg (by simp only [t2, t3]; omega), if_neg (by simp only [t3, t4]; omega),
    if_pos (by simp only [t4, t5]; omega), if_pos (by simp [c1, c2, c3])]
  simp only [decode_four]
  rw [if_pos (by simp only [rune3Max, MaxRune]; omega)]

/-- Decoding undoes encoding: at the front of a string that starts with the
encoding of a scalar value, the range loop yields that value and goes on
right after it. -/
theorem rangeNext_EncodeRune (c : Nat) (hc : IsScalar c) (rest : GoString) :
    rangeNext (EncodeRune c ++ rest) = some (c, rest) := by
  simp only [IsScalar, MaxRune, surrogateMin, surrogateMax] at hc
  by_cases h1 : c ≤ 0x7F
  · rw [EncodeRune_one c h1]
    simp only [List.singleton_append, rangeNext]
    rw [if_pos (by simp only [RuneSelf]; omega)]
  · by_cases h2 : c ≤ 0x7FF
    · rw [EncodeRune_two c (by omega) h2]
      simp only [List.cons_append, List.nil_append, rangeNext]
      rw [if_neg (by simp only [RuneSelf]; omega),
        decoderune_two _ _ rest (by omega) (by omega) (by omega)]
      simp only [List.drop_succ_cons, List.drop_zero, Option.some.injEq, Prod.mk.injEq,
        and_true]
      omega
    · by_cases h3 : c ≤ 0xFFFF
      · rw [EncodeRune_three c (by omega) h3 (by omega)]
        simp only [List.cons_append, List.nil_append, rangeNext]
        rw [if_neg (by simp only [RuneSelf]; omega),
          decoderune_three _ _ _ rest (by omega) (by omega) (by omega) (by omega) (by omega)]
        simp only [List.drop_succ_cons, List.drop_zero, Option.some.injEq, Prod.mk.injEq,
          and_true]
        omega
      · rw [EncodeRune_four c (by omega) (by omega)]
        simp only [List.cons_append, List.nil_append, rangeNext]
        rw [if_neg (by simp only [RuneSelf]; omega),
          decoderune_four _ _ _ _ rest (by omega) (by omega) (by omega) (by omega) (by omega)
            (by omega)]
        simp only [List.drop_succ_cons, List.drop_zero, Option.some.injEq, Prod.mk.injEq,
          and_true]
        omega

/-- The range loop over the encoding of scalar values yields these values. -/
theorem runes_utf8 (cs : List Nat) (h : ∀ c ∈ cs, IsScalar c) : runes (utf8 cs) = cs := by
  induction cs with
  | nil => rfl
  | cons c cs ih =>
    rw [utf8, runes_of_rangeNext (rangeNext_EncodeRune c (h c (List.mem_cons_self _ _)) _),
      ih (fun d hd => h d (List.mem_cons_of_mem _ hd))]

/-- What `decoderune` can return at the front of `b0 :: t`: the error result,
or a two-, three- or four-byte sequence with its value. -/
theorem decoderune_cases (b0 : Nat) (t : GoString) :
    decoderune (b0 :: t) = (RuneError, 1)
    ∨ (∃ b1 t1, t = b1 :: t1 ∧ (192 ≤ b0 ∧ b0 < 224) ∧ (128 ≤ b1 ∧ b1 ≤ 191)
        ∧ 0x7F < b0 % 32 * 64 + b1 % 64
        ∧ decoderune (b0 :: t) = (b0 % 32 * 64 + b1 % 64, 2))
    ∨ (∃ b1 b2 t2, t = b1 :: b2 :: t2 ∧ (224 ≤ b0 ∧ b0 < 240) ∧ (128 ≤ b1 ∧ b1 ≤ 191)
        ∧ (128 ≤ b2 ∧ b2 ≤ 191)
        ∧ 0x7FF < b0 % 16 * 4096 + b1 % 64 * 64 + b2 % 64
        ∧ ¬ (0xD800 ≤ b0 % 16 * 4096 + b1 % 64 * 64 + b2 % 64 ∧
              b0 % 16 * 4096 + b1 % 64 * 64 + b2 % 64 ≤ 0xDFFF)
        ∧ decoderune (b0 :: t) = (b0 % 16 * 4096 + b1 % 64 * 64 + b2 % 64, 3))
    ∨ (∃ b1 b2 b3 t3, t = b1 :: b2 :: b3 :: t3 ∧ (240 ≤ b0 ∧ b0 < 248)
        ∧ (128 ≤ b1 ∧ b1 ≤ 191) ∧ (128 ≤ b2 ∧ b2 ≤ 191) ∧ (128 ≤ b3 ∧ b3 ≤ 191)
        ∧ 0xFFFF < b0 % 8 * 262144 + b1 % 64 * 4096 + b2 % 64 * 64 + b3 % 64
        ∧ b0 % 8 * 262144 + b1 % 64 * 4096 + b2 % 64 * 64 + b3 % 64 ≤ 0x10FFFF
        ∧ decoderune (b0 :: t)
            = (b0 % 8 * 262144 + b1 % 64 * 4096 + b2 % 64 * 64 + b3 % 64, 4)) := by
  by_cases h2 : t2 ≤ b0 ∧ b0 < t3
  · have h2n : 192 ≤ b0 ∧ b0 < 224 := by simpa only [t2, t3] using h2
    cases t with
    | nil => left; simp only [decoderune]; rw [if_pos h2]
    | cons b1 t1 =>
      by_cases c1 : isCont b1 = true
      · have c1n := (isCont_iff b1).mp c1
        by_cases hr : 0x7F < b0 % 32 * 64 + b1 % 64
        · right; left
          exact ⟨b1, t1, rfl, h2n, c1n, hr, decoderune_two b0 b1 t1 h2n c1n hr⟩
        · left
          simp only [decoderune]
          rw [if_pos h2, if_pos c1]
          simp only [decode_two]
          rw [if_neg (by simp only [rune1Max]; omega)]
      · left
        simp only [decoderune]
        rw [if_pos h2, if_neg c1]
  · by_cases h3 : t3 ≤ b0 ∧ b0 < t4
    · have h3n : 224 ≤ b0 ∧ b0 < 240 := by simpa only [t3, t4] using h3
      match t with
      | [] => left; simp only [decoderune]; rw [if_neg h2, if_pos h3]
      | [_] => left; simp only [decoderune]; rw [if_neg h2, if_pos h3]
      | b1 :: b2 :: t2 =>
        by_cases c : (isCont b1 && isCont b2) = true
        · have c12 : isCont b1 = true ∧ isCont b2 = true := by
            simpa only [Bool.and_eq_true] using c
          have c1n := (isCont_iff b1).mp c12.1
          have c2n := (isCont_iff b2).mp c12.2
          by_cases hr : 0x7FF < b0 % 16 * 4096 + b1 % 64 * 64 + b2 % 64 ∧
              ¬ (0xD800 ≤ b0 % 16 * 4096 + b1 % 64 * 64 + b2 % 64 ∧
                  b0 % 16 * 4096 + b1 % 64 * 64 + b2 % 64 ≤ 0xDFFF)
          · right; right; left
            exact ⟨b1, b2, t2, rfl, h3n, c1n, c2n, hr.1, hr.2,
              decoderune_three b0 b1 b2 t2 h3n c1n c2n hr.1 hr.2⟩
          · left
            simp only [decoderune]
            rw [if_neg h2, if_pos h3, if_pos c]
            simp only [decode_three]
            rw [if_neg (by simpa only [rune2Max, surrogateMin, surrogateMax] using hr)]
        · left
          simp only [decoderune]
          rw [if_neg h2, if_pos h3, if_neg c]
    · by_cases h4 : t4 ≤ b0 ∧ b0 < t5
      · have h4n : 240 ≤ b0 ∧ b0 < 248 := by simpa only [t4, t5] using h4
        match t with
        | [] => left; simp only [decoderune]; rw [if_neg h2, if_neg h3, if_pos h4]
        | [_] => left; simp only [decoderune]; rw [if_neg h2, if_neg h3, if_pos h4]
        | [_, _] => left; simp only [decoderune]; rw [if_neg h2, if_neg h3, if_pos h4]
        | b1 :: b2 :: b3 :: t3 =>
          by_cases c : (isCont b1 && isCont b2 && isCont b3) = true
          · have c123 : (isCont b1 = true ∧ isCont b2 = true) ∧ isCont b3 = true := by
              simpa only [Bool.and_eq_true] using c
            have c1n := (isCont_iff b1).mp c123.1.1
            have c2n := (isCont_iff b2).mp c123.1.2
            have c3n := (isCont_iff b3).mp c123.2
            by_cases hr : 0xFFFF < b0 % 8 * 262144 + b1 % 64 * 4096 + b2 % 64 * 64 + b3 % 64 ∧
                b0 % 8 * 262144 + b1 % 64 * 4096 + b2 % 64 * 64 + b3 % 64 ≤ 0x10FFFF
            · right; right; right
              exact ⟨b1, b2, b3, t3, rfl, h4n, c1n, c2n, c3n, hr.1, hr.2,
                decoderune_four b0 b1 b2 b3 t3 h4n c1n c2n c3n hr.1 hr.2⟩
            · left
              simp only [decoderune]
              rw [if_neg h2, if_neg h3, if_pos h4, if_pos c]
              simp only [decode_four]
              rw [if_neg (by simpa only [rune3Max, MaxRune] using hr)]
          · left
            simp only [decoderune]
            rw [if_neg h2, if_neg h3, if_pos h4, if_neg c]
      · left
        simp only [decoderune]
        rw [if_neg h2, if_neg h3, if_neg h4]

theorem RuneError_scalar : IsScalar RuneError := by decide

/-- One step of the range loop on a non-empty string: it yields a scalar
value `ch` and consumes a non-empty prefix `pre`; either the first byte is
ASCII and is yielded as it is, or the rune is at least `0x80` and so is
every consumed byte. -/
theorem rangeNext_cons (b0 : Nat) (t : GoString) :
    ∃ ch pre rest, rangeNext (b0 :: t) = some (ch, rest) ∧ b0 :: t = pre ++ rest
      ∧ IsScalar ch
      ∧ ((b0 < 128 ∧ ch = b0 ∧ pre = [b0]) ∨ (128 ≤ ch ∧ ∀ b ∈ pre, 128 ≤ b))
      ∧ pre.length ≤ (EncodeRune ch).length := by
  by_cases hb : b0 < 128
  · refine ⟨b0, [b0], t, ?_, rfl, ?_, Or.inl ⟨hb, rfl, rfl⟩, ?_⟩
    · simp only [rangeNext]; rw [if_pos (by simpa only [RuneSelf] using hb)]
    · simp only [IsScalar, MaxRune, surrogateMin, surrogateMax]; omega
    · rw [EncodeRune_one b0 (by omega)]
  · have hn : rangeNext (b0 :: t)
        = some ((decoderune (b0 :: t)).1, (b0 :: t).drop (decoderune (b0 :: t)).2) := by
      simp only [rangeNext]; rw [if_neg (by simpa only [RuneSelf] using hb)]
    rcases decoderune_cases b0 t with h | ⟨b1, t1, rfl, h0, h1, hr, h⟩
        | ⟨b1, b2, t2, rfl, h0, h1, h2, hr, hs, h⟩
        | ⟨b1, b2, b3, t3, rfl, h0, h1, h2, h3, hr, hm, h⟩
    · have e3 : (EncodeRune RuneError).length = 3 := by decide
      refine ⟨RuneError, [b0], t, ?_, rfl, RuneError_scalar, Or.inr ⟨by decide, ?_⟩,
        by rw [e3]; simp⟩
      · rw [hn, h]; rfl
      · intro b hb1
        simp only [List.mem_singleton] at hb1
        omega
    · refine ⟨b0 % 32 * 64 + b1 % 64, [b0, b1], t1, ?_, rfl, ?_, Or.inr ⟨by omega, ?_⟩, ?_⟩
      · rw [hn, h]; rfl
      · simp only [IsScalar, MaxRune, surrogateMin, surrogateMax]; omega
      · intro b hb1
        simp only [List.mem_cons, List.mem_singleton, List.not_mem_nil, or_false] at hb1
        omega
      · rw [EncodeRune_two _ hr (by omega)]; exact Nat.le_refl _
    · refine ⟨b0 % 16 * 4096 + b1 % 64 * 64 + b2 % 64, [b0, b1, b2], t2, ?_, rfl, ?_,
        Or.inr ⟨by omega, ?_⟩, ?_⟩
      · rw [hn, h]; rfl
      · simp only [IsScalar, MaxRune, surrogateMin, surrogateMax]; omega
      · intro b hb1
        simp only [List.mem_cons, List.mem_singleton, List.not_mem_nil, or_false] at hb1
        omega
      · rw [EncodeRune_three _ hr (by omega) hs]; exact Nat.le_refl _
    · refine ⟨b0 % 8 * 262144 + b1 % 64 * 4096 + b2 % 64 * 64 + b3 % 64, [b0, b1, b2, b3], t3,
        ?_, rfl, ?_, Or.inr ⟨by omega, ?_⟩, ?_⟩
      · rw [hn, h]; rfl
      · simp only [IsScalar, MaxRune, surrogateMin, surrogateMax]; omega
      · intro b hb1
        simp only [List.mem_cons, List.mem_singleton, List.not_mem_nil, or_false] at hb1
        omega
      · rw [EncodeRune_four _ hr hm]; exact Nat.le_refl _

/-- Every rune the range loop yields is a scalar value. -/
theorem runes_scalar : ∀ (n : Nat) (s : GoString), s.length ≤ n → ∀ c ∈ runes s, IsScalar c := by
  intro n
  induction n with
  | zero =>
    intro s hn c hc
    have hs : s = [] := List.length_eq_zero.mp (Nat.le_zero.mp hn)
    subst hs
    simp [runes_nil] at hc
  | succ n ih =>
    intro s hn c hc
    cases s with
    | nil => simp [runes_nil] at hc
    | cons b0 t =>
      obtain ⟨ch, pre, rest, hr, _, hsc, _⟩ := rangeNext_cons b0 t
      have hl := rangeNext_length hr
      rw [runes_of_rangeNext hr, List.mem_cons] at hc
      rcases hc with rfl | hc
      · exact hsc
      · exact ih rest (by simp only [List.length_cons] at hl hn; omega) c hc

/-- An ASCII byte occurs in a string as often as the range loop yields it as
a rune: it is never part of a longer sequence, and no longer sequence decodes
to it. -/
theorem count_runes (a : Nat) (ha : a < 128) : ∀ (n : Nat) (s : GoString), s.length ≤ n →
    (runes s).count a = s.count a := by
  intro n
  induction n with
  | zero =>
    intro s hn
    have hs : s = [] := List.length_eq_zero.mp (Nat.le_zero.mp hn)
    subst hs
    rfl
  | succ n ih =>
    intro s hn
    cases s with
    | nil => rfl
    | cons b0 t =>
      obtain ⟨ch, pre, rest, hr, hsplit, _, hcase, _⟩ := rangeNext_cons b0 t
      have hl := rangeNext_length hr
      rw [runes_of_rangeNext hr, hsplit, List.count_append, List.count_cons,
        ih rest (by simp only [List.length_cons] at hl hn; omega)]
      rcases hcase with ⟨_, rfl, rfl⟩ | ⟨hch, hpre⟩
      · simp only [List.count_cons, List.count_nil]
        omega
      · have h1 : (ch == a) = false := by
          simp only [beq_eq_false_iff_ne, ne_eq]; omega
        have h2 : pre.count a = 0 := by
          apply List.count_eq_zero.mpr
          intro hmem
          have := hpre a hmem
          omega
        rw [h1, h2]
        simp

/-! ### `Wrappable` as the reference transform -/

theorem byte_of_lt (r : Nat) (h : r < 256) : byte r = r := Nat.mod_eq_of_lt h

theorem WriteRune_eq (buf : GoString) (r : Nat) : WriteRune buf r = buf ++ EncodeRune r := by
  unfold WriteRune
  split
  · rename_i h
    simp only [RuneSelf] at h
    rw [EncodeRune_one r (by omega), byte_of_lt r (by omega)]
  · rfl

theorem utf8_append (xs ys : List Nat) : utf8 (xs ++ ys) = utf8 xs ++ utf8 ys := by
  induction xs with
  | nil => rfl
  | cons x xs ih => rw [List.cons_append, utf8, utf8, ih, List.append_assoc]

theorem WrappableRef_nil : WrappableRef [] = [] := rfl

theorem WrappableRef_cons (c : Nat) (cs : List Nat) :
    WrappableRef (c :: cs)
      = (if c = 0x2C ∨ c = 0x29 then [c, 0x200B] else [c]) ++ WrappableRef cs := by
  simp only [WrappableRef, List.map_cons, List.flatten_cons]

theorem wrapBody_eq (buf : GoString) (ch : Nat) :
    wrapBody buf ch = buf ++ utf8 (if ch = 0x2C ∨ ch = 0x29 then [ch, 0x200B] else [ch]) := by
  unfold wrapBody
  simp only [WriteRune_eq]
  split <;> simp [utf8]

theorem foldl_wrapBody (rs : List Nat) : ∀ buf : GoString,
    rs.foldl wrapBody buf = buf ++ utf8 (WrappableRef rs) := by
  induction rs with
  | nil => intro buf; simp [WrappableRef_nil, utf8]
  | cons r rs ih =>
    intro buf
    rw [List.foldl_cons, ih, wrapBody_eq, WrappableRef_cons, utf8_append, List.append_assoc]

/-- On every string, `Wrappable` is the encoding of the reference transform
of the runes the range loop yields. -/
theorem Wrappable_eq (s : GoString) : Wrappable s = utf8 (WrappableRef (runes s)) := by
  rw [Wrappable_eq_foldl, foldl_wrapBody, List.nil_append]

theorem WrappableRef_scalar (cs : List Nat) (h : ∀ c ∈ cs, IsScalar c) :
    ∀ c ∈ WrappableRef cs, IsScalar c := by
  induction cs with
  | nil => intro c hc; simp [WrappableRef_nil] at hc
  | cons d ds ih =>
    intro c hc
    rw [WrappableRef_cons, List.mem_append] at hc
    rcases hc with hc | hc
    · split at hc
      · simp only [List.mem_cons, List.mem_singleton, List.not_mem_nil, or_false] at hc
        rcases hc with rfl | rfl
        · exact h _ (List.mem_cons_self _ _)
        · decide
      · simp only [List.mem_singleton] at hc
        subst hc
        exact h _ (List.mem_cons_self _ _)
    · exact ih (fun e he => h e (List.mem_cons_of_mem _ he)) c hc

theorem dropAfterTrigger_WrappableRef (cs : List Nat) :
    dropAfterTrigger (WrappableRef cs) = cs := by
  induction cs with
  | nil => rfl
  | cons c cs ih =>
    rw [WrappableRef_cons]
    by_cases h : c = 0x2C ∨ c = 0x29
    · rw [if_pos h]
      show dropAfterTrigger (c :: 0x200B :: WrappableRef cs) = c :: cs
      rw [dropAfterTrigger, if_pos h, ih]
    · rw [if_neg h]
      show dropAfterTrigger (c :: WrappableRef cs) = c :: cs
      cases hw : WrappableRef cs with
      | nil =>
        rw [hw] at ih
        rw [← ih]
        rfl
      | cons d ds =>
        rw [hw] at ih
        rw [dropAfterTrigger, if_neg h, ih]

theorem length_WrappableRef (cs : List Nat) :
    (WrappableRef cs).length = cs.length + cs.count 0x2C + cs.count 0x29 := by
  induction cs with
  | nil => rfl
  | cons c cs ih =>
    rw [WrappableRef_cons, List.length_append, ih, List.count_cons, List.count_cons,
      List.length_cons]
    by_cases h1 : c = 0x2C
    · subst h1; simp; omega
    · by_cases h2 : c = 0x29
      · subst h2; simp; omega
      · have e1 : (c == 0x2C) = false := by simpa using h1
        have e2 : (c == 0x29) = false := by simpa using h2
        rw [if_neg (by omega), e1, e2]
        simp
        omega

theorem runes_Wrappable (s : GoString) : runes (Wrappable s) = WrappableRef (runes s) := by
  rw [Wrappable_eq]
  exact runes_utf8 _ (WrappableRef_scalar _ (runes_scalar s.length s (Nat.le_refl _)))

theorem count_WrappableRef (a : Nat) (ha : a ≠ 0x200B) (cs : List Nat) :
    (WrappableRef cs).count a = cs.count a := by
  induction cs with
  | nil => rfl
  | cons c cs ih =>
    rw [WrappableRef_cons, List.count_append, ih, List.count_cons]
    have e : ((0x200B : Nat) == a) = false := by
      simp only [beq_eq_false_iff_ne, ne_eq]; omega
    split
    · simp only [List.count_cons, List.count_nil, e]
      simp; omega
    · simp only [List.count_cons, List.count_nil]
      omega

theorem WrappableRef_of_no_trigger (cs : List Nat) (h1 : cs.count 0x2C = 0)
    (h2 : cs.count 0x29 = 0) : WrappableRef cs = cs := by
  induction cs with
  | nil => rfl
  | cons c cs ih =>
    have m1 : (0x2C : Nat) ∉ c :: cs := List.count_eq_zero.mp h1
    have m2 : (0x29 : Nat) ∉ c :: cs := List.count_eq_zero.mp h2
    simp only [List.mem_cons, not_or] at m1 m2
    rw [WrappableRef_cons, if_neg (by omega),
      ih (List.count_eq_zero.mpr m1.2) (List.count_eq_zero.mpr m2.2)]
    rfl

theorem count_utf8 (a : Nat) (ha : a < 128) (cs : List Nat) (h : ∀ c ∈ cs, IsScalar c) :
    (utf8 cs).count a = cs.count a := by
  rw [← count_runes a ha (utf8 cs).length (utf8 cs) (Nat.le_refl _), runes_utf8 cs h]

theorem length_utf8_WrappableRef (cs : List Nat) :
    (utf8 (WrappableRef cs)).length
      = (utf8 cs).length + 3 * (cs.count 0x2C + cs.count 0x29) := by
  induction cs with
  | nil => rfl
  | cons c cs ih =>
    have e3 : (EncodeRune 0x200B).length = 3 := by decide
    rw [WrappableRef_cons, utf8_append, List.length_append, ih, utf8, List.length_append,
      List.count_cons, List.count_cons]
    by_cases h1 : c = 0x2C
    · subst h1
      simp only [utf8, List.length_append, e3, List.length_nil]
      simp; omega
    · by_cases h2 : c = 0x29
      · subst h2
        simp only [utf8, List.length_append, e3, List.length_nil]
        simp; omega
      · have e1 : (c == 0x2C) = false := by simpa using h1
        have e2 : (c == 0x29) = false := by simpa using h2
        rw [if_neg (by omega), e1, e2]
        simp only [utf8, List.length_append, List.length_nil]
        simp; omega

/-- Re-encoding the runes of a string never gives fewer bytes than the string
has: a decoded sequence is re-encoded in as many bytes as it took, and a byte
that does not decode is re-encoded as the three bytes of U+FFFD. -/
theorem length_le_utf8_runes : ∀ (n : Nat) (s : GoString), s.length ≤ n →
    s.length ≤ (utf8 (runes s)).length := by
  intro n
  induction n with
  | zero =>
    intro s hn
    have hs : s = [] := List.length_eq_zero.mp (Nat.le_zero.mp hn)
    subst hs
    exact Nat.le_refl _
  | succ n ih =>
    intro s hn
    cases s with
    | nil => exact Nat.zero_le _
    | cons b0 t =>
      obtain ⟨ch, pre, rest, hr, hsplit, _, _, hlen⟩ := rangeNext_cons b0 t
      have hl := rangeNext_length hr
      have hi := ih rest (by simp only [List.length_cons] at hl hn; omega)
      rw [runes_of_rangeNext hr, utf8, List.length_append, hsplit, List.length_append]
      omega

/-- One step of the range loop is one step of `Wrappable`. -/
theorem Wrappable_of_rangeNext {s rest : GoString} {ch : Nat}
    (h : rangeNext s = some (ch, rest)) :
    Wrappable s = utf8 (WrappableRef [ch]) ++ Wrappable rest := by
  rw [Wrappable_eq, Wrappable_eq, runes_of_rangeNext h, ← utf8_append, WrappableRef_cons,
    WrappableRef_cons, WrappableRef_nil, List.append_nil]

/-! ## Facts about the reader of tags -/

theorem run_append (a b : GoString) (s : Scan) : run (a ++ b) s = run b (run a s) := by
  simp only [run, List.foldl_append]

theorem run_cons (b : Nat) (bs : GoString) (s : Scan) : run (b :: bs) s = run bs (step s b) :=
  rfl

theorem openTag_ok (s : Scan) (c : GoString) : (openTag s c).ok = s.ok := by
  unfold openTag
  dsimp only
  split
  · rfl
  · split <;> rfl

theorem closeTag_ok (s : Scan) (n : GoString) (h : (closeTag s n).ok = true) : s.ok = true := by
  unfold closeTag at h
  split at h
  · split at h
    · exact h
    · simp at h
  · simp at h

theorem finishTag_ok (s : Scan) (c : GoString) (h : (finishTag s c).ok = true) :
    s.ok = true := by
  unfold finishTag at h
  split at h
  · exact h
  · exact closeTag_ok s _ h
  · rw [openTag_ok] at h; exact h

/-- Once an end tag has failed to match, the reader stays failed. -/
theorem step_ok (s : Scan) (b : Nat) (h : (step s b).ok = true) : s.ok = true := by
  unfold step at h
  split at h
  · split at h
    · exact h
    · exact h
  · split at h
    · exact finishTag_ok s _ h
    · exact h
  · split at h
    · exact closeTag_ok s _ h
    · exact h

theorem run_ok : ∀ (bs : GoString) (s : Scan), (run bs s).ok = true → s.ok = true := by
  intro bs
  induction bs with
  | nil => intro s h; exact h
  | cons b bs ih => intro s h; exact step_ok s b (ih _ h)

theorem openTag_frame (base : List GoString) (old : List Tag) (s : Scan) (c : GoString) :
    openTag (frame base old s) c = frame base old (openTag s c) := by
  unfold openTag
  dsimp only [frame]
  split
  · simp [frame, shiftTag]
  · split <;> simp [frame, shiftTag]

theorem closeTag_frame (base : List GoString) (old : List Tag) (s : Scan) (n : GoString)
    (h : (closeTag s n).ok = true) :
    closeTag (frame base old s) n = frame base old (closeTag s n) := by
  obtain ⟨mode, stack, tags, ok⟩ := s
  cases stack with
  | nil => simp [closeTag] at h
  | cons top rest =>
    by_cases e : top = n
    · simp [closeTag, frame, shiftTag, e]
    · simp [closeTag, e] at h

theorem finishTag_frame (base : List GoString) (old : List Tag) (s : Scan) (c : GoString)
    (h : (finishTag s c).ok = true) :
    finishTag (frame base old s) c = frame base old (finishTag s c) := by
  unfold finishTag at h ⊢
  split
  · rfl
  · exact closeTag_frame base old s _ h
  · exact openTag_frame base old s c

/-- One byte read inside open elements does what it does outside of them, as
long as no end tag fails. -/
theorem step_frame (base : List GoString) (old : List Tag) (s : Scan) (b : Nat)
    (h : (step s b).ok = true) : step (frame base old s) b = frame base old (step s b) := by
  obtain ⟨mode, stack, tags, ok⟩ := s
  cases mode with
  | text =>
    simp only [step, frame]
    split <;> rfl
  | tag acc =>
    simp only [step] at h ⊢
    by_cases e : b = 0x3E
    · rw [if_pos e] at h
      simp only [frame, e, if_true]
      exact finishTag_frame base old ⟨Mode.tag acc, stack, tags, ok⟩ _ h
    · simp only [frame, if_neg e]
  | raw name acc =>
    simp only [step] at h ⊢
    by_cases e : startsWith (rawCloser name) (b :: acc) = true
    · rw [if_pos e] at h
      simp only [frame, e, if_true]
      exact closeTag_frame base old ⟨Mode.raw name acc, stack, tags, ok⟩ _ h
    · simp only [frame, if_neg e]

/-- A fragment read inside open elements: the same tags, deeper, on top of
the same open elements, as long as no end tag fails. -/
theorem run_frame (base : List GoString) (old : List Tag) :
    ∀ (bs : GoString) (s : Scan), (run bs s).ok = true →
      run bs (frame base old s) = frame base old (run bs s) := by
  intro bs
  induction bs with
  | nil => intro s _; rfl
  | cons b bs ih =>
    intro s h
    rw [run_cons] at h ⊢
    rw [run_cons, step_frame base old s b (run_ok bs _ h), ih _ h]

theorem countStart_append (name : GoString) (xs ys : List Tag) :
    countStart name (xs ++ ys) = countStart name xs + countStart name ys := by
  simp only [countStart, List.filter_append, List.length_append]

theorem countStart_shift (name : GoString) (k : Nat) (xs : List Tag) :
    countStart name (xs.map (shiftTag k)) = countStart name xs := by
  induction xs with
  | nil => rfl
  | cons x xs ih =>
    simp only [countStart, List.map_cons, List.filter_cons, shiftTag] at ih ⊢
    split <;> simp [ih]

theorem countStart_of_absent (name : GoString) (xs : List Tag)
    (h : ∀ t ∈ xs, t.name ≠ name) : countStart name xs = 0 := by
  induction xs with
  | nil => rfl
  | cons x xs ih =>
    have hx : x.name ≠ name := h x (List.mem_cons_self _ _)
    have hxs := ih (fun t ht => h t (List.mem_cons_of_mem _ ht))
    simp only [countStart, List.filter_cons] at hxs ⊢
    have e : (!x.closing && x.name == name) = false := by simp [hx]
    rw [e]
    exact hxs

/-- The reader after the bytes of `StartHTMLTable`: in text, with `table`,
`body` and `html` open. -/
theorem run_startHTML :
    run startHTML Scan.init = ⟨Mode.text, openAfterStart,
      [⟨false, bytesOf "table", 2⟩, ⟨false, bytesOf "body", 1⟩, ⟨true, bytesOf "head", 1⟩,
       ⟨true, bytesOf "style", 2⟩, ⟨false, bytesOf "style", 2⟩, ⟨false, bytesOf "head", 1⟩,
       ⟨false, bytesOf "html", 0⟩], true⟩ := by
  decide!

/-- The reader after the bytes of `EndHTMLTable`, read with `table`, `body`
and `html` open: in text, with nothing open. -/
theorem run_endHTML :
    run endHTML ⟨Mode.text, openAfterStart, [], true⟩ = ⟨Mode.text, [],
      [⟨true, bytesOf "html", 0⟩, ⟨true, bytesOf "body", 1⟩, ⟨true, bytesOf "script", 2⟩,
       ⟨false, bytesOf "script", 2⟩, ⟨true, bytesOf "script", 2⟩, ⟨false, bytesOf "script", 2⟩,
       ⟨true, bytesOf "table", 2⟩], true⟩ := by
  decide!

/-- The reader after start, a balanced fragment and end. -/
theorem run_document (R : GoString) (tagsR : List Tag)
    (hR : run R Scan.init = ⟨Mode.text, [], tagsR, true⟩) :
    ∃ tags1 tagsE, (run (startHTML ++ R ++ endHTML) Scan.init)
        = ⟨Mode.text, [], tagsE ++ (tagsR.map (shiftTag 3) ++ tags1), true⟩
      ∧ (∀ name, countStart name tags1 = countStart name (run startHTML Scan.init).tags)
      ∧ (∀ name, countStart name tagsE
          = countStart name (run endHTML ⟨Mode.text, openAfterStart, [], true⟩).tags) := by
  refine ⟨(run startHTML Scan.init).tags,
    (run endHTML ⟨Mode.text, openAfterStart, [], true⟩).tags.map (shiftTag 0), ?_,
    fun _ => rfl, fun name => countStart_shift name 0 _⟩
  have h1 : run startHTML Scan.init
      = frame openAfterStart (run startHTML Scan.init).tags Scan.init := by
    rw [run_startHTML]; rfl
  have h2 : run R (frame openAfterStart (run startHTML Scan.init).tags Scan.init)
      = frame openAfterStart (run startHTML Scan.init).tags (run R Scan.init) :=
    run_frame _ _ R Scan.init (by rw [hR])
  have h3 : frame openAfterStart (run startHTML Scan.init).tags (run R Scan.init)
      = frame [] (tagsR.map (shiftTag 3) ++ (run startHTML Scan.init).tags)
          ⟨Mode.text, openAfterStart, [], true⟩ := by
    rw [hR]
    simp [frame, openAfterStart]
  have h4 := run_frame [] (tagsR.map (shiftTag 3) ++ (run startHTML Scan.init).tags) endHTML
    ⟨Mode.text, openAfterStart, [], true⟩ (by rw [run_endHTML])
  rw [run_append, run_append, h1, h2, h3, h4, run_endHTML]
  simp [frame, Scan.init]

/-! ## The claims about `Wrappable` -/

/-- C1: on valid UTF-8 text, that is the encoding of a sequence `cs` of
scalar values, `Wrappable` is the reference transform on code points: its
output is the encoding of `cs` with one U+200B after each `,` and each `)`,
the runes of the output are exactly that sequence, and deleting the code
point after each trigger gives `cs` back. On `"a,b)c"` the output is
`a`, `,`, U+200B, `b`, `)`, U+200B, `c`. -/
theorem Wrappable_refines_reference (cs : List Nat) (h : ∀ c ∈ cs, IsScalar c) :
    Wrappable (utf8 cs) = utf8 (WrappableRef cs)
    ∧ runes (Wrappable (utf8 cs)) = WrappableRef cs
    ∧ dropAfterTrigger (runes (Wrappable (utf8 cs))) = cs
    ∧ Wrappable [0x61, 0x2C, 0x62, 0x29, 0x63]
        = [0x61, 0x2C, 0xE2, 0x80, 0x8B, 0x62, 0x29, 0xE2, 0x80, 0x8B, 0x63] := by
  have h1 : Wrappable (utf8 cs) = utf8 (WrappableRef cs) := by
    rw [Wrappable_eq, runes_utf8 cs h]
  have h2 : runes (Wrappable (utf8 cs)) = WrappableRef cs := by
    rw [runes_Wrappable, runes_utf8 cs h]
  refine ⟨h1, h2, ?_, by decide⟩
  rw [h2, dropAfterTrigger_WrappableRef]

theorem Wrappable_refines_reference_witness :
    (∀ c ∈ [0x61, 0x2C, 0x62, 0x29, 0x63], IsScalar c)
    ∧ Wrappable (utf8 [0x61, 0x2C, 0x62, 0x29, 0x63])
        = utf8 (WrappableRef [0x61, 0x2C, 0x62, 0x29, 0x63])
    ∧ utf8 (WrappableRef [0x61, 0x2C, 0x62, 0x29, 0x63])
        = [0x61, 0x2C, 0xE2, 0x80, 0x8B, 0x62, 0x29, 0xE2, 0x80, 0x8B, 0x63] :=
  ⟨by decide,
   (Wrappable_refines_reference [0x61, 0x2C, 0x62, 0x29, 0x63] (by decide)).1,
   by decide⟩

/-- C2, as stated, fails: on the one-byte string `","` the first application
gives the comma and one U+200B, the second the comma and two U+200B. -/
theorem Wrappable_not_idempotent :
    Wrappable [0x2C] = [0x2C, 0xE2, 0x80, 0x8B]
    ∧ Wrappable (Wrappable [0x2C]) = [0x2C, 0xE2, 0x80, 0x8B, 0xE2, 0x80, 0x8B]
    ∧ Wrappable (Wrappable [0x2C]) ≠ Wrappable [0x2C] := by
  decide

/-- C2, amended: applying `Wrappable` twice gives the same as applying it once
exactly when the input contains neither `,` nor `)`; in general the second
application adds one more U+200B per trigger, so the output grows by the
number of triggers once more (in code points). -/
theorem Wrappable_twice (s : GoString) :
    (Wrappable (Wrappable s) = Wrappable s ↔ s.count 0x2C = 0 ∧ s.count 0x29 = 0)
    ∧ (runes (Wrappable (Wrappable s))).length
        = (runes (Wrappable s)).length + s.count 0x2C + s.count 0x29 := by
  have c1 := count_runes 0x2C (by decide) s.length s (Nat.le_refl _)
  have c2 := count_runes 0x29 (by decide) s.length s (Nat.le_refl _)
  have hlen : (runes (Wrappable (Wrappable s))).length
      = (runes (Wrappable s)).length + s.count 0x2C + s.count 0x29 := by
    rw [runes_Wrappable (Wrappable s), length_WrappableRef, runes_Wrappable s,
      count_WrappableRef 0x2C (by decide), count_WrappableRef 0x29 (by decide), c1, c2]
  refine ⟨⟨?_, ?_⟩, hlen⟩
  · intro heq
    rw [heq] at hlen
    omega
  · intro hz
    have e : WrappableRef (runes s) = runes s :=
      WrappableRef_of_no_trigger _ (by omega) (by omega)
    have e2 : Wrappable s = utf8 (runes s) := by rw [Wrappable_eq, e]
    rw [Wrappable_eq (Wrappable s), runes_Wrappable, e, e, e2]

/-- C3: in code points (the runes a range loop yields, which is what
`utf8.RuneCountInString` counts), the output of `Wrappable` is as long as the
input plus the number of `,` plus the number of `)` in the input. -/
theorem Wrappable_rune_length (s : GoString) :
    (runes (Wrappable s)).length = (runes s).length + s.count 0x2C + s.count 0x29 := by
  rw [runes_Wrappable, length_WrappableRef,
    count_runes 0x2C (by decide) s.length s (Nat.le_refl _),
    count_runes 0x29 (by decide) s.length s (Nat.le_refl _)]

/-- C4, as stated for every input string, fails: the one-byte string `0xFF`
contains neither `,` nor `)` and `Wrappable` turns it into the three bytes of
U+FFFD. -/
theorem Wrappable_no_trigger_not_identity :
    ([0xFF] : GoString).count 0x2C = 0 ∧ ([0xFF] : GoString).count 0x29 = 0
    ∧ (∀ b ∈ ([0xFF] : GoString), b < 256)
    ∧ Wrappable [0xFF] ≠ [0xFF] := by
  decide

/-- C4, amended: on valid UTF-8 text (the encoding of scalar values `cs`) that
contains neither `,` nor `)`, `Wrappable` returns its input; and
`Wrappable("") = ""`. -/
theorem Wrappable_no_trigger (cs : List Nat) (h : ∀ c ∈ cs, IsScalar c)
    (h1 : (utf8 cs).count 0x2C = 0) (h2 : (utf8 cs).count 0x29 = 0) :
    Wrappable (utf8 cs) = utf8 cs ∧ Wrappable [] = [] := by
  rw [count_utf8 0x2C (by decide) cs h] at h1
  rw [count_utf8 0x29 (by decide) cs h] at h2
  refine ⟨?_, rfl⟩
  rw [Wrappable_eq, runes_utf8 cs h, WrappableRef_of_no_trigger cs h1 h2]

theorem Wrappable_no_trigger_witness :
    utf8 [0x68, 0xE9, 0x25B2] = [0x68, 0xC3, 0xA9, 0xE2, 0x96, 0xB2]
    ∧ Wrappable (utf8 [0x68, 0xE9, 0x25B2]) = utf8 [0x68, 0xE9, 0x25B2]
    ∧ Wrappable [] = [] :=
  ⟨by decide,
   Wrappable_no_trigger [0x68, 0xE9, 0x25B2] (by decide) (by decide) (by decide)⟩

/-- C9: in bytes, each inserted marker costs three: on valid UTF-8 text the
output of `Wrappable` has the length of the input plus three times the number
of `,` and `)` in it. Hence, for every string with at least one trigger, the
output has more bytes than the length of the input plus the number of
triggers. -/
theorem Wrappable_byte_length (cs : List Nat) (h : ∀ c ∈ cs, IsScalar c) :
    (Wrappable (utf8 cs)).length
      = (utf8 cs).length + 3 * ((utf8 cs).count 0x2C + (utf8 cs).count 0x29)
    ∧ ∀ s : GoString, 0 < s.count 0x2C + s.count 0x29 →
        s.length + s.count 0x2C + s.count 0x29 < (Wrappable s).length := by
  constructor
  · rw [Wrappable_eq, runes_utf8 cs h, length_utf8_WrappableRef,
      count_utf8 0x2C (by decide) cs h, count_utf8 0x29 (by decide) cs h]
  · intro s hs
    have c1 := count_runes 0x2C (by decide) s.length s (Nat.le_refl _)
    have c2 := count_runes 0x29 (by decide) s.length s (Nat.le_refl _)
    have hl := length_le_utf8_runes s.length s (Nat.le_refl _)
    rw [Wrappable_eq, length_utf8_WrappableRef, c1, c2]
    omega

theorem Wrappable_byte_length_witness :
    (utf8 [0x61, 0x2C, 0x62, 0x29, 0x63]).length = 5
    ∧ (Wrappable (utf8 [0x61, 0x2C, 0x62, 0x29, 0x63])).length = 5 + 3 * (1 + 1)
    ∧ 5 + 1 + 1 < (Wrappable [0x61, 0x2C, 0x62, 0x29, 0x63]).length :=
  ⟨by decide,
   (Wrappable_byte_length [0x61, 0x2C, 0x62, 0x29, 0x63] (by decide)).1,
   (Wrappable_byte_length [0x61, 0x2C, 0x62, 0x29, 0x63] (by decide)).2
     [0x61, 0x2C, 0x62, 0x29, 0x63] (by decide)⟩

/-- C10: a byte that does not decode (the range loop yields `RuneError` with
width one for it) is replaced by the three bytes `EF BF BD` in the output of
`Wrappable`, which then goes on with the next byte; so the one-byte string
`0xFF`, which has no `,` and no `)`, is not returned as it is; and the output
of `Wrappable` is valid UTF-8, the encoding of scalar values, on every
input. -/
theorem Wrappable_invalid_input :
    (∀ (b0 : Nat) (t : GoString), RuneSelf ≤ b0 → decoderune (b0 :: t) = (RuneError, 1) →
        Wrappable (b0 :: t) = [0xEF, 0xBF, 0xBD] ++ Wrappable t)
    ∧ (([0xFF] : GoString).count 0x2C = 0 ∧ ([0xFF] : GoString).count 0x29 = 0
        ∧ Wrappable [0xFF] = [0xEF, 0xBF, 0xBD] ∧ Wrappable [0xFF] ≠ [0xFF])
    ∧ (∀ s : GoString, ∃ cs : List Nat, (∀ c ∈ cs, IsScalar c) ∧ Wrappable s = utf8 cs) := by
  refine ⟨?_, by decide, ?_⟩
  · intro b0 t hb hd
    have hn : rangeNext (b0 :: t) = some (RuneError, t) := by
      simp only [rangeNext]
      rw [if_neg (by omega), hd]
      rfl
    rw [Wrappable_of_rangeNext hn]
    rfl
  · intro s
    exact ⟨WrappableRef (runes s),
      WrappableRef_scalar _ (runes_scalar s.length s (Nat.le_refl _)), Wrappable_eq s⟩

theorem Wrappable_invalid_input_witness :
    RuneSelf ≤ 0xC3 ∧ decoderune [0xC3, 0x28] = (RuneError, 1)
    ∧ Wrappable [0xC3, 0x28] = [0xEF, 0xBF, 0xBD] ++ Wrappable [0x28]
    ∧ Wrappable [0xC3, 0x28] = [0xEF, 0xBF, 0xBD, 0x28] :=
  ⟨by decide, by decide,
   Wrappable_invalid_input.1 0xC3 [0x28] (by decide) (by decide), by decide⟩


/-! ## The claims about `StartHTMLTable` and `EndHTMLTable` -/

/-- C5: whatever the sink does, `StartHTMLTable` hands it the bytes
`startHTML`, once; these contain `<table class="gridtable">` exactly once, no
`</table`, `</body` or `</html`, and end with that start tag, a line break
and a tab; read as HTML they leave `table`, `body` and `html` open, and the
start tag of `table` is the last tag. -/
theorem StartHTMLTable_leaves_table_open {σ : Type} (w : ResponseWriter σ) (st : σ)
    (outcome : List GoString → GoString → WriteResult) :
    StartHTMLTable w st = (w.Write st startHTML).1
    ∧ StartHTMLTable (recorder outcome) [] = [startHTML]
    ∧ occurrences (bytesOf "<table class=\"gridtable\">") startHTML = 1
    ∧ occurrences (bytesOf "</table") startHTML = 0
    ∧ occurrences (bytesOf "</body") startHTML = 0
    ∧ occurrences (bytesOf "</html") startHTML = 0
    ∧ endsWith startHTML (bytesOf "<table class=\"gridtable\">\n\t") = true
    ∧ (run startHTML Scan.init).mode = Mode.text
    ∧ (run startHTML Scan.init).stack = ["table", "body", "html"].map bytesOf
    ∧ (run startHTML Scan.init).tags.head? = some ⟨false, bytesOf "table", 2⟩
    ∧ (run startHTML Scan.init).tags.reverse.map (fun t => (t.closing, t.name))
        = [(false, bytesOf "html"), (false, bytesOf "head"), (false, bytesOf "style"),
           (true, bytesOf "style"), (true, bytesOf "head"), (false, bytesOf "body"),
           (false, bytesOf "table")] := by
  refine ⟨rfl, rfl, by decide!, by decide!, by decide!, by decide!, by decide!, ?_, ?_, ?_, ?_⟩
  all_goals rw [run_startHTML]
  all_goals rfl

/-- C6: whatever the sink does, `EndHTMLTable` hands it the bytes `endHTML`,
once; these start with a line break and `</table>`, which is the first tag;
then come the two `script` elements, the second of which holds the
definition of `sortableByColumn` and, after it, its call on the table; the
last two tags are `</body>` and `</html>`, and nothing follows `</html>`. -/
theorem EndHTMLTable_closes_document {σ : Type} (w : ResponseWriter σ) (st : σ)
    (outcome : List GoString → GoString → WriteResult) :
    EndHTMLTable w st = (w.Write st endHTML).1
    ∧ EndHTMLTable (recorder outcome) [] = [endHTML]
    ∧ startsWith (bytesOf "\n</table>") endHTML = true
    ∧ endsWith endHTML (bytesOf "</script>\n</body>\n</html>") = true
    ∧ (run endHTML ⟨Mode.text, openAfterStart, [], true⟩).tags.reverse.map
          (fun t => (t.closing, t.name))
        = [(true, bytesOf "table"), (false, bytesOf "script"), (true, bytesOf "script"),
           (false, bytesOf "script"), (true, bytesOf "script"), (true, bytesOf "body"),
           (true, bytesOf "html")]
    ∧ firstIndex (bytesOf "</table>") endHTML = some 1
    ∧ firstIndex (bytesOf "<script src=") endHTML = some 10
    ∧ firstIndex (bytesOf "<script type=\"text/javascript\">") endHTML = some 99
    ∧ firstIndex (bytesOf "$.fn.sortableByColumn = function()") endHTML = some 131
    ∧ firstIndex (bytesOf "$(\x27table\x27).sortableByColumn();") endHTML = some 1126
    ∧ firstIndex (bytesOf "</script>\n</body>\n</html>") endHTML = some 1161
    ∧ endHTML.length = 1161 + (bytesOf "</script>\n</body>\n</html>").length := by
  refine ⟨rfl, rfl, by decide!, by decide!, ?_, by decide!, by decide!, by decide!, by decide!,
    by decide!, by decide!, by decide!⟩
  rw [run_endHTML]
  rfl

/-- C7: for every fragment `R` of well-formed rows, the bytes of
`StartHTMLTable`, then `R`, then the bytes of `EndHTMLTable` are a
tag-balanced document with exactly one `table` start tag, and with the rows
of `R` as its rows. -/
theorem document_balanced (R : GoString) (h : WellFormedRows R) :
    Balanced (startHTML ++ R ++ endHTML)
    ∧ startTags "table" (startHTML ++ R ++ endHTML) = 1
    ∧ startTags "tr" (startHTML ++ R ++ endHTML) = startTags "tr" R := by
  obtain ⟨⟨hm, hs, hok⟩, _, hnt⟩ := h
  have hR : run R Scan.init = ⟨Mode.text, [], (run R Scan.init).tags, true⟩ := by
    cases hrun : run R Scan.init with
    | mk m stk tg ok =>
      rw [hrun] at hm hs hok
      simp only at hm hs hok
      subst hm hs hok
      rfl
  obtain ⟨tags1, tagsE, hdoc, h1, hE⟩ := run_document R _ hR
  have t1 : countStart (bytesOf "table") tags1 = 1 := by
    rw [h1, run_startHTML]; decide
  have tE : countStart (bytesOf "table") tagsE = 0 := by
    rw [hE, run_endHTML]; decide
  have r1 : countStart (bytesOf "tr") tags1 = 0 := by
    rw [h1, run_startHTML]; decide
  have rE : countStart (bytesOf "tr") tagsE = 0 := by
    rw [hE, run_endHTML]; decide
  have tR : countStart (bytesOf "table") (run R Scan.init).tags = 0 :=
    countStart_of_absent _ _ hnt
  refine ⟨?_, ?_, ?_⟩
  · unfold Balanced
    rw [hdoc]
    exact ⟨rfl, rfl, rfl⟩
  · unfold startTags
    rw [hdoc, countStart_append, countStart_append, countStart_shift, t1, tE, tR]
  · unfold startTags
    rw [hdoc, countStart_append, countStart_append, countStart_shift, r1, rE]
    omega

theorem document_balanced_witness :
    WellFormedRows exampleRow
    ∧ Balanced (startHTML ++ exampleRow ++ endHTML)
    ∧ startTags "table" (startHTML ++ exampleRow ++ endHTML) = 1
    ∧ startTags "tr" (startHTML ++ exampleRow ++ endHTML) = 1
    ∧ startTags "tr" exampleRow = 1 :=
  ⟨by decide!, (document_balanced exampleRow (by decide!)).1,
   (document_balanced exampleRow (by decide!)).2.1,
   (document_balanced exampleRow (by decide!)).2.2.trans (by decide!), by decide!⟩

/-- C8: neither function has an error path. For every sink and every outcome
of `Write`, each function calls `Write` exactly once, on its fixed bytes (in
`EndHTMLTable` as the deferred call that runs when the function returns), and
what it leaves does not depend on the result of that call: two sinks that
treat the bytes alike and answer differently are left alike. -/
theorem table_functions_ignore_write_result {σ : Type} (w : ResponseWriter σ) (st : σ)
    (outcome : List GoString → GoString → WriteResult) :
    StartHTMLTable w st = (w.Write st startHTML).1
    ∧ EndHTMLTable w st = runDeferred w [endHTML] st
    ∧ EndHTMLTable w st = (w.Write st endHTML).1
    ∧ StartHTMLTable (recorder outcome) [] = [startHTML]
    ∧ EndHTMLTable (recorder outcome) [] = [endHTML]
    ∧ (∀ answer : σ → GoString → WriteResult,
        StartHTMLTable ⟨fun s p => ((w.Write s p).1, answer s p)⟩ st = StartHTMLTable w st
        ∧ EndHTMLTable ⟨fun s p => ((w.Write s p).1, answer s p)⟩ st = EndHTMLTable w st) :=
  ⟨rfl, rfl, rfl, rfl, rfl, fun _ => ⟨rfl, rfl⟩⟩

end Logz
